import Mathlib

/-!
Verification of the recipe-analysis pipeline (`analysis.py`).

A pandas `DataFrame` of recipes is modelled as a `Table`: a list of column
tags (`cols`, the schema actually present) together with a list of rows.
Every `Row` carries a slot for each possible column; a slot of a column that
is not in `cols` is never consulted.  Missing cells (pandas `NaN`) are
`Option.none`; numeric cells are rationals (the float arithmetic of the
source is modelled exactly over `ℚ`).  Operations that can raise a pandas
`KeyError`/`ValueError` return `Except String _`.

The modelling of library calls used by the source:
  * `Series.mean()` skips missing values and is `none` on an all-missing
    column (pandas returns `NaN` there, and `fillna(NaN)` changes nothing).
  * Python truthiness of a float cell: `0.0` is falsy, any other float and
    `NaN` are truthy; float division with a `NaN` operand yields `NaN`.
  * `sort_values(..., ascending=False)` with the default `kind='quicksort'`
    puts `NaN` keys last but is documented as NOT stable: the relative order
    of equal keys is unspecified.  The executable model below must pick some
    concrete order, and tags rows with their position and breaks ties by it;
    every ordering property exported to a claim theorem is proved in a form
    that holds for ANY non-increasing permutation of the tagged rows, so
    nothing rests on that tie-order choice.
  * `groupby(key)` sorts the group keys ascending and preserves the original
    row order inside each group; a missing grouping column raises `KeyError`.
  * `Series.mode()` drops missing values and returns the most frequent
    values sorted ascending, so `.iloc[0]` is the least tied mode.
  * `str.lower()` is ASCII lowercasing, `pyLower` below; Python string
    comparison is code-point lexicographic, `strLE` below.
-/

/-- Column tags of the recipe table. -/
inductive Col
  | dietType | recipeName | cuisineType | protein | carbs | fat
  | pcRatio | cfRatio
deriving DecidableEq

/-- The three macronutrient columns `Protein(g)`, `Carbs(g)`, `Fat(g)`. -/
inductive MCol
  | protein | carbs | fat
deriving DecidableEq

def MCol.col : MCol → Col
  | .protein => .protein
  | .carbs => .carbs
  | .fat => .fat

/-- One recipe row.  Cells of the numeric columns are `Option ℚ`
(`none` = pandas `NaN`); the optional cuisine cell likewise. -/
structure Row where
  dietType : String
  recipeName : String
  cuisineType : Option String
  protein : Option ℚ
  carbs : Option ℚ
  fat : Option ℚ
  pcRatio : Option ℚ
  cfRatio : Option ℚ
deriving DecidableEq

/-- A DataFrame: the set of columns actually present plus the rows. -/
structure Table where
  cols : List Col
  rows : List Row
deriving DecidableEq

def MCol.get : MCol → Row → Option ℚ
  | .protein, r => r.protein
  | .carbs, r => r.carbs
  | .fat, r => r.fat

def MCol.set : MCol → Row → Option ℚ → Row
  | .protein, r, v => { r with protein := v }
  | .carbs, r, v => { r with carbs := v }
  | .fat, r, v => { r with fat := v }

/-- The cells of macronutrient column `c`, in row order. -/
def colVals (c : MCol) (t : Table) : List (Option ℚ) :=
  t.rows.map c.get

/-- Arithmetic mean of a list of rationals; `none` on the empty list
(pandas returns `NaN` for the mean of no values). -/
def meanQ (vs : List ℚ) : Option ℚ :=
  if vs = [] then none else some (vs.sum / (vs.length : ℚ))

/-- `df[col].mean()`: mean over the non-missing cells of the column. -/
def colMean (c : MCol) (t : Table) : Option ℚ :=
  meanQ ((colVals c t).filterMap id)

/-- `fillna(m)` applied to one cell of column `c`. -/
def fillRow (c : MCol) (m : ℚ) (r : Row) : Row :=
  if (c.get r).isNone then c.set r (some m) else r

/-- `df[col] = df[col].fillna(df[col].mean())` for one column: when the mean
is `NaN` (all cells missing) the fill changes nothing. -/
def fillCol (t : Table) (c : MCol) : Table :=
  match colMean c t with
  | none => t
  | some m => ⟨t.cols, t.rows.map (fillRow c m)⟩

/-- One loop iteration of `clean_macronutrients`: absent columns are skipped
(with a logged warning, a pure side effect not modelled). -/
def cleanStep (t : Table) (c : MCol) : Table :=
  if c.col ∈ t.cols then fillCol t c else t

/-- `clean_macronutrients(df)`: fill each of Protein, Carbs, Fat (in source
order) with the column mean. -/
def clean_macronutrients (t : Table) : Table :=
  cleanStep (cleanStep (cleanStep t .protein) .carbs) .fat

-- Sanity checks on tiny concrete tables (kept as anonymous examples).
def rowPCF (d : String) (p c f : Option ℚ) : Row :=
  ⟨d, "", none, p, c, f, none, none⟩

example :
    clean_macronutrients ⟨[.dietType, .protein], [rowPCF "v" none none none]⟩ =
      ⟨[.dietType, .protein], [rowPCF "v" none none none]⟩ := by
  decide

example :
    colVals .protein
      (clean_macronutrients
        ⟨[.protein], [rowPCF "v" (some 4) none none, rowPCF "v" none none none]⟩) =
      [some 4, some 4] := by
  simp [clean_macronutrients, cleanStep, fillCol, colMean, colVals, meanQ,
    fillRow, MCol.col, MCol.get, MCol.set, rowPCF]

/-! ### Basic facts about the cleaner -/

theorem MCol.get_set_ne (c c' : MCol) (r : Row) (v : Option ℚ) (h : c ≠ c') :
    c'.get (c.set r v) = c'.get r := by
  cases c <;> cases c' <;> simp_all [MCol.get, MCol.set]

theorem MCol.get_set_self (c : MCol) (r : Row) (v : Option ℚ) :
    c.get (c.set r v) = v := by
  cases c <;> simp [MCol.get, MCol.set]

theorem get_fillRow_ne (c c' : MCol) (h : c ≠ c') (m : ℚ) (r : Row) :
    c'.get (fillRow c m r) = c'.get r := by
  unfold fillRow
  split
  · exact MCol.get_set_ne c c' r (some m) h
  · rfl

theorem get_fillRow_self (c : MCol) (m : ℚ) (r : Row) :
    c.get (fillRow c m r) = if (c.get r).isNone then some m else c.get r := by
  unfold fillRow
  split <;> simp_all [MCol.get_set_self]

theorem cols_fillCol (t : Table) (c : MCol) : (fillCol t c).cols = t.cols := by
  unfold fillCol
  cases colMean c t <;> rfl

theorem cols_cleanStep (t : Table) (c : MCol) : (cleanStep t c).cols = t.cols := by
  unfold cleanStep
  split
  · exact cols_fillCol t c
  · rfl

theorem cols_clean (t : Table) : (clean_macronutrients t).cols = t.cols := by
  unfold clean_macronutrients
  rw [cols_cleanStep, cols_cleanStep, cols_cleanStep]

theorem colVals_fillCol_ne (t : Table) (c c' : MCol) (h : c ≠ c') :
    colVals c' (fillCol t c) = colVals c' t := by
  unfold fillCol
  cases hm : colMean c t
  · rfl
  · simp [colVals, List.map_map, Function.comp_def, get_fillRow_ne c c' h]

theorem colVals_cleanStep_ne (t : Table) (c c' : MCol) (h : c ≠ c') :
    colVals c' (cleanStep t c) = colVals c' t := by
  unfold cleanStep
  split
  · exact colVals_fillCol_ne t c c' h
  · rfl

theorem colMean_congr (c : MCol) (t₁ t₂ : Table)
    (h : colVals c t₁ = colVals c t₂) : colMean c t₁ = colMean c t₂ := by
  unfold colMean
  rw [h]

theorem colMean_eq_none_iff (c : MCol) (t : Table) :
    colMean c t = none ↔ ∀ v ∈ colVals c t, v = none := by
  unfold colMean meanQ
  split
  case isTrue h =>
    simp only [List.filterMap_eq_nil_iff, id] at h
    simpa using h
  case isFalse h =>
    constructor
    · intro hx
      exact (Option.some_ne_none _ hx).elim
    · intro hall
      exact (h (List.filterMap_eq_nil_iff.mpr (by simpa using hall))).elim

theorem colVals_fillCol_self (t : Table) (c : MCol) (m : ℚ)
    (hm : colMean c t = some m) :
    colVals c (fillCol t c) =
      (colVals c t).map (fun v => if v.isNone then some m else v) := by
  unfold fillCol
  rw [hm]
  simp [colVals, List.map_map, Function.comp_def, get_fillRow_self]

theorem cleanStep_of_mean_none (t : Table) (c : MCol)
    (hm : colMean c t = none) : cleanStep t c = t := by
  unfold cleanStep fillCol
  rw [hm]
  split <;> rfl

/-- After a successful fill a column is either fully present or was fully
missing to begin with (and the column is untouched). -/
def colOk (c : MCol) (t : Table) : Prop :=
  (∀ v ∈ colVals c t, v.isSome) ∨ (∀ v ∈ colVals c t, v = none)

theorem colOk_cleanStep_self (t : Table) (c : MCol) (hc : c.col ∈ t.cols) :
    colOk c (cleanStep t c) := by
  unfold cleanStep
  rw [if_pos hc]
  cases hm : colMean c t
  case none =>
    right
    have ht : fillCol t c = t := by
      unfold fillCol
      rw [hm]
    rw [ht]
    exact (colMean_eq_none_iff c t).mp hm
  case some m =>
    left
    rw [colVals_fillCol_self t c m hm]
    intro v hv
    rcases List.mem_map.mp hv with ⟨w, _, rfl⟩
    cases w <;> simp

theorem colOk_cleanStep_ne (t : Table) (c c' : MCol) (h : c' ≠ c)
    (hok : colOk c t) : colOk c (cleanStep t c') := by
  unfold colOk
  rw [colVals_cleanStep_ne t c' c h]
  exact hok

theorem cleanStep_eq_self (t : Table) (c : MCol)
    (h : colOk c t ∨ c.col ∉ t.cols) : cleanStep t c = t := by
  unfold cleanStep
  split
  case isTrue hc =>
    rcases h with hok | habs
    · rcases hok with hall | hnone
      · unfold fillCol
        cases hm : colMean c t
        case none => rfl
        case some m =>
          have hrows : ∀ r ∈ t.rows, fillRow c m r = r := by
            intro r hr
            unfold fillRow
            rw [if_neg]
            have hs := hall (c.get r) (List.mem_map_of_mem c.get hr)
            cases hcg : c.get r
            · rw [hcg] at hs
              exact (Bool.false_ne_true hs).elim
            · simp
          show Table.mk t.cols (t.rows.map (fillRow c m)) = t
          rw [List.map_congr_left hrows]
          simp
      · have hm := (colMean_eq_none_iff c t).mpr hnone
        unfold fillCol
        rw [hm]
    · exact absurd hc habs
  case isFalse => rfl

theorem colOk_clean (t : Table) (c : MCol) (hp : c.col ∈ t.cols) :
    colOk c (clean_macronutrients t) := by
  unfold clean_macronutrients
  cases c
  case protein =>
    exact colOk_cleanStep_ne _ _ _ (by decide)
      (colOk_cleanStep_ne _ _ _ (by decide) (colOk_cleanStep_self t .protein hp))
  case carbs =>
    exact colOk_cleanStep_ne _ _ _ (by decide)
      (colOk_cleanStep_self _ .carbs (by rw [cols_cleanStep]; exact hp))
  case fat =>
    exact colOk_cleanStep_self _ .fat (by rw [cols_cleanStep, cols_cleanStep]; exact hp)

theorem cleanStep_clean_eq (t : Table) (c : MCol) :
    cleanStep (clean_macronutrients t) c = clean_macronutrients t := by
  apply cleanStep_eq_self
  by_cases hp : c.col ∈ t.cols
  · left
    exact colOk_clean t c hp
  · right
    rw [cols_clean]
    exact hp

/-- C9: running `clean_macronutrients` a second time on an already-cleaned
table is a no-op: after the first pass each macronutrient column either has
no missing values left (so the fill does nothing) or was entirely missing
(so the recomputed mean is again missing and the fill does nothing). -/
theorem c9_clean_idempotent (t : Table) :
    clean_macronutrients (clean_macronutrients t) = clean_macronutrients t := by
  show cleanStep (cleanStep (cleanStep (clean_macronutrients t) .protein) .carbs) .fat =
    clean_macronutrients t
  rw [cleanStep_clean_eq t .protein, cleanStep_clean_eq t .carbs, cleanStep_clean_eq t .fat]

theorem colVals_cleanStep_self_some (t : Table) (c : MCol) (m : ℚ)
    (hc : c.col ∈ t.cols) (hm : colMean c t = some m) :
    colVals c (cleanStep t c) =
      (colVals c t).map (fun v => if v.isNone then some m else v) := by
  unfold cleanStep
  rw [if_pos hc]
  exact colVals_fillCol_self t c m hm

/-- The cleaned values of a column whose pre-cleaning mean exists: every
missing cell becomes that mean, every present cell is untouched.  The mean
used is always the one computed on the ORIGINAL table, because the earlier
loop iterations of `clean_macronutrients` only touch the other columns. -/
theorem colVals_clean_of_mean_some (t : Table) (c : MCol) (m : ℚ)
    (hc : c.col ∈ t.cols) (hm : colMean c t = some m) :
    colVals c (clean_macronutrients t) =
      (colVals c t).map (fun v => if v.isNone then some m else v) := by
  cases c
  case protein =>
    unfold clean_macronutrients
    rw [colVals_cleanStep_ne _ .fat .protein (by decide),
      colVals_cleanStep_ne _ .carbs .protein (by decide)]
    exact colVals_cleanStep_self_some t .protein m hc hm
  case carbs =>
    unfold clean_macronutrients
    rw [colVals_cleanStep_ne _ .fat .carbs (by decide)]
    have h1 : colVals .carbs (cleanStep t .protein) = colVals .carbs t :=
      colVals_cleanStep_ne t .protein .carbs (by decide)
    rw [colVals_cleanStep_self_some (cleanStep t .protein) .carbs m
      (by rw [cols_cleanStep]; exact hc) (by rw [colMean_congr _ _ t h1]; exact hm), h1]
  case fat =>
    unfold clean_macronutrients
    have h1 : colVals .fat (cleanStep t .protein) = colVals .fat t :=
      colVals_cleanStep_ne t .protein .fat (by decide)
    have h2 : colVals .fat (cleanStep (cleanStep t .protein) .carbs) = colVals .fat t :=
      (colVals_cleanStep_ne _ .carbs .fat (by decide)).trans h1
    rw [colVals_cleanStep_self_some (cleanStep (cleanStep t .protein) .carbs) .fat m
      (by rw [cols_cleanStep, cols_cleanStep]; exact hc)
      (by rw [colMean_congr _ _ t h2]; exact hm), h2]

/-- A column whose mean is missing (no non-missing cell at all) is left
untouched by the whole cleaning pass. -/
theorem colVals_clean_of_mean_none (t : Table) (c : MCol)
    (hm : colMean c t = none) :
    colVals c (clean_macronutrients t) = colVals c t := by
  cases c
  case protein =>
    unfold clean_macronutrients
    rw [colVals_cleanStep_ne _ .fat .protein (by decide),
      colVals_cleanStep_ne _ .carbs .protein (by decide),
      cleanStep_of_mean_none t .protein hm]
  case carbs =>
    unfold clean_macronutrients
    have h1 : colVals .carbs (cleanStep t .protein) = colVals .carbs t :=
      colVals_cleanStep_ne t .protein .carbs (by decide)
    rw [colVals_cleanStep_ne _ .fat .carbs (by decide),
      cleanStep_of_mean_none _ .carbs (by rw [colMean_congr _ _ t h1]; exact hm), h1]
  case fat =>
    unfold clean_macronutrients
    have h1 : colVals .fat (cleanStep t .protein) = colVals .fat t :=
      colVals_cleanStep_ne t .protein .fat (by decide)
    have h2 : colVals .fat (cleanStep (cleanStep t .protein) .carbs) = colVals .fat t :=
      (colVals_cleanStep_ne _ .carbs .fat (by decide)).trans h1
    rw [cleanStep_of_mean_none _ .fat (by rw [colMean_congr _ _ t h2]; exact hm), h2]

/-- C10: a macronutrient column that is present but has no non-missing value
at all is left entirely missing by `clean_macronutrients` (the mean of no
values is itself missing and filling with it changes nothing). -/
theorem c10_all_missing_column_stays_missing (t : Table) (c : MCol)
    (hc : c.col ∈ t.cols) (hall : ∀ v ∈ colVals c t, v = none) :
    ∀ v ∈ colVals c (clean_macronutrients t), v = none := by
  rw [colVals_clean_of_mean_none t c ((colMean_eq_none_iff c t).mpr hall)]
  exact hall

/-- An all-missing protein column used as concrete input. -/
def tAllMissing : Table :=
  ⟨[Col.dietType, Col.protein], [rowPCF "vegan" none none none]⟩

/-- C10 witness: the all-missing protein column of `tAllMissing` is still
all-missing after cleaning. -/
theorem c10_witness :
    (colVals .protein (clean_macronutrients tAllMissing)).all (· == none) = true := by
  have h := c10_all_missing_column_stays_missing tAllMissing .protein
    (by decide) (by decide)
  simp only [List.all_eq_true]
  intro v hv
  simpa using h v hv

/-- C1 counterexample: the claim promises zero missing values after cleaning
for EVERY table whose column is present, but on `tAllMissing` (a present
protein column with only missing cells) the cleaned column still has a
missing value. -/
theorem c1_counterexample :
    MCol.protein.col ∈ tAllMissing.cols ∧
    ¬ (∀ v ∈ colVals .protein (clean_macronutrients tAllMissing), v.isSome) := by
  decide

/-- C1 (amended with the at-least-one-value hypothesis): for a macronutrient
column present before cleaning that has at least one non-missing cell, after
`clean_macronutrients` the column has no missing cell, the row count is
unchanged, and every previously-missing cell now holds the arithmetic mean
of the column computed over the original non-missing values only. -/
theorem c1_clean_fills_with_original_mean (t : Table) (c : MCol)
    (hc : c.col ∈ t.cols) (hsome : ∃ v ∈ colVals c t, v.isSome) :
    ∃ m : ℚ, colMean c t = some m ∧
      (∀ v ∈ colVals c (clean_macronutrients t), v.isSome) ∧
      (colVals c (clean_macronutrients t)).length = (colVals c t).length ∧
      ∀ i : ℕ, (colVals c t)[i]? = some none →
        (colVals c (clean_macronutrients t))[i]? = some (some m) := by
  have hne : ¬ ∀ v ∈ colVals c t, v = none := by
    rcases hsome with ⟨v, hv, hvs⟩
    intro hall
    rw [hall v hv] at hvs
    simp at hvs
  obtain ⟨m, hm⟩ : ∃ m, colMean c t = some m := by
    cases hmm : colMean c t
    · exact (hne ((colMean_eq_none_iff c t).mp hmm)).elim
    · exact ⟨_, rfl⟩
  refine ⟨m, hm, ?_, ?_, ?_⟩
  · rw [colVals_clean_of_mean_some t c m hc hm]
    intro v hv
    rcases List.mem_map.mp hv with ⟨w, _, rfl⟩
    cases w <;> simp
  · rw [colVals_clean_of_mean_some t c m hc hm, List.length_map]
  · intro i hi
    rw [colVals_clean_of_mean_some t c m hc hm, List.getElem?_map, hi]
    rfl

/-- A protein column with one present and one missing cell. -/
def tOneMissing : Table :=
  ⟨[Col.protein], [rowPCF "v" (some 4) none none, rowPCF "v" none none none]⟩

/-- C1 witness: instantiating the amended claim on `tOneMissing`. -/
theorem c1_witness :
    ∃ m : ℚ, colMean .protein tOneMissing = some m ∧
      (∀ v ∈ colVals .protein (clean_macronutrients tOneMissing), v.isSome) ∧
      (colVals .protein (clean_macronutrients tOneMissing)).length =
        (colVals .protein tOneMissing).length ∧
      ∀ i : ℕ, (colVals .protein tOneMissing)[i]? = some none →
        (colVals .protein (clean_macronutrients tOneMissing))[i]? = some (some m) :=
  c1_clean_fills_with_original_mean tOneMissing .protein (by decide) (by decide)

/-! ### Ratio deriver (`add_nutrient_ratios`) -/

/-- Python truthiness of a float cell: `0.0` is falsy, every other float is
truthy, and `NaN` is truthy as well. -/
def truthy : Option ℚ → Bool
  | none => true
  | some q => decide (q ≠ 0)

/-- Float division when the (truthy) guard passed: a `NaN` operand
propagates to `NaN`; the denominator here is never the literal `0`. -/
def optDiv : Option ℚ → Option ℚ → Option ℚ
  | some a, some b => some (a / b)
  | _, _ => none

/-- One ratio cell: `num / den if den else 0` from the source lambdas. -/
def ratioCell (num den : Option ℚ) : Option ℚ :=
  if truthy den then optDiv num den else some 0

/-- Adds a column tag to the schema (`df[new] = ...`). -/
def addCol (cols : List Col) (c : Col) : List Col :=
  if c ∈ cols then cols else cols ++ [c]

/-- `add_nutrient_ratios(df)`.  `df.apply(lambda row: ..., axis=1)` never
invokes the lambda on an empty frame (no `KeyError` there); on a non-empty
frame a missing `Protein(g)`/`Carbs(g)` raises a `KeyError` in the first
lambda and a missing `Fat(g)` raises in the second. -/
def add_nutrient_ratios (t : Table) : Except String Table :=
  if t.rows = [] then
    .ok ⟨addCol (addCol t.cols .pcRatio) .cfRatio, []⟩
  else if Col.protein ∈ t.cols ∧ Col.carbs ∈ t.cols then
    if Col.fat ∈ t.cols then
      .ok ⟨addCol (addCol t.cols .pcRatio) .cfRatio,
        (t.rows.map (fun r => { r with pcRatio := ratioCell r.protein r.carbs })).map
          (fun r => { r with cfRatio := ratioCell r.carbs r.fat })⟩
    else .error "KeyError: Fat(g)"
  else .error "KeyError: Protein(g) or Carbs(g)"

/-- A complete row with a zero denominator, and a row with a missing
`Carbs(g)` cell (the `NaN` case). -/
def tZeroCarbs : Table :=
  ⟨[Col.dietType, Col.protein, Col.carbs, Col.fat],
    [rowPCF "vegan" (some 1) (some 0) (some 1)]⟩

def tNaNCarbs : Table :=
  ⟨[Col.dietType, Col.protein, Col.carbs, Col.fat],
    [rowPCF "vegan" (some 1) none (some 1)]⟩

/-- C2 counterexample: on a row whose `Carbs(g)` cell is missing, `NaN` is
truthy in Python, so the first lambda divides by `NaN` and produces a `NaN`
(undefined) ratio value, contradicting the claim that no undefined ratio is
ever produced. -/
theorem c2_counterexample :
    ∃ u : Table, add_nutrient_ratios tNaNCarbs = .ok u ∧
      u.rows.map (·.pcRatio) = [none] := by
  refine ⟨_, rfl, ?_⟩
  rfl

theorem ratioCell_some (a b : ℚ) :
    ratioCell (some a) (some b) = some (if b = 0 then 0 else a / b) := by
  unfold ratioCell truthy optDiv
  by_cases hb : b = 0 <;> simp [hb]

/-- C2 (amended to tables that contain the three macronutrient columns with
every cell present — which is what the pipeline guarantees when the ratio
step runs after a successful clean): the call succeeds, drops no row,
touches no existing cell, and sets `Protein_to_Carbs_ratio` to
`Protein(g)/Carbs(g)` when `Carbs(g) ≠ 0` and to `0` when it is `0`, and
symmetrically for `Carbs_to_Fat_ratio`; no undefined or infinite ratio
value is produced. -/
theorem c2_ratio_safe_on_complete_rows (t : Table)
    (hp : Col.protein ∈ t.cols) (hc : Col.carbs ∈ t.cols) (hf : Col.fat ∈ t.cols)
    (hv : ∀ r ∈ t.rows, r.protein.isSome ∧ r.carbs.isSome ∧ r.fat.isSome) :
    ∃ u : Table, add_nutrient_ratios t = .ok u ∧
      u.rows.length = t.rows.length ∧
      ∀ i : ℕ, ∀ r ∈ t.rows[i]?, ∀ s ∈ u.rows[i]?,
        s.dietType = r.dietType ∧ s.recipeName = r.recipeName ∧
        s.cuisineType = r.cuisineType ∧ s.protein = r.protein ∧
        s.carbs = r.carbs ∧ s.fat = r.fat ∧
        ∃ pv cv fv : ℚ, r.protein = some pv ∧ r.carbs = some cv ∧ r.fat = some fv ∧
          s.pcRatio = some (if cv = 0 then 0 else pv / cv) ∧
          s.cfRatio = some (if fv = 0 then 0 else cv / fv) := by
  by_cases hrows : t.rows = []
  · refine ⟨⟨addCol (addCol t.cols .pcRatio) .cfRatio, []⟩, ?_, by simp [hrows], ?_⟩
    · unfold add_nutrient_ratios
      rw [if_pos hrows]
    · intro i r hr s hs
      rw [hrows] at hr
      simp at hr
  · refine ⟨⟨addCol (addCol t.cols .pcRatio) .cfRatio,
      (t.rows.map (fun r => { r with pcRatio := ratioCell r.protein r.carbs })).map
        (fun r => { r with cfRatio := ratioCell r.carbs r.fat })⟩, ?_, by simp, ?_⟩
    · unfold add_nutrient_ratios
      rw [if_neg hrows, if_pos ⟨hp, hc⟩, if_pos hf]
    · intro i r hr s hs
      rw [Option.mem_def] at hr
      have hmem : r ∈ t.rows := List.getElem?_mem hr
      obtain ⟨hps, hcs, hfs⟩ := hv r hmem
      obtain ⟨pv, hpv⟩ := Option.isSome_iff_exists.mp hps
      obtain ⟨cv, hcv⟩ := Option.isSome_iff_exists.mp hcs
      obtain ⟨fv, hfv⟩ := Option.isSome_iff_exists.mp hfs
      simp only [List.getElem?_map, hr, Option.map_some', Option.mem_def,
        Option.some.injEq] at hs
      subst hs
      refine ⟨rfl, rfl, rfl, rfl, rfl, rfl, pv, cv, fv, hpv, hcv, hfv, ?_, ?_⟩
      · simp only [hpv, hcv, ratioCell_some]
      · simp only [hcv, hfv, ratioCell_some]

/-- C2 witness: a complete table with a zero `Carbs(g)` denominator. -/
theorem c2_witness :
    ∃ u : Table, add_nutrient_ratios tZeroCarbs = .ok u ∧
      u.rows.length = tZeroCarbs.rows.length ∧
      ∀ i : ℕ, ∀ r ∈ tZeroCarbs.rows[i]?, ∀ s ∈ u.rows[i]?,
        s.dietType = r.dietType ∧ s.recipeName = r.recipeName ∧
        s.cuisineType = r.cuisineType ∧ s.protein = r.protein ∧
        s.carbs = r.carbs ∧ s.fat = r.fat ∧
        ∃ pv cv fv : ℚ, r.protein = some pv ∧ r.carbs = some cv ∧ r.fat = some fv ∧
          s.pcRatio = some (if cv = 0 then 0 else pv / cv) ∧
          s.cfRatio = some (if fv = 0 then 0 else cv / fv) :=
  c2_ratio_safe_on_complete_rows tZeroCarbs (by decide) (by decide) (by decide)
    (by decide)

/-! ### Strings: Python `str.lower()` and code-point comparison -/

/-- Python `str.lower()` (ASCII range; the dataset values are ASCII). -/
def pyLower (s : String) : String := String.mk (s.data.map Char.toLower)

/-- Code-point lexicographic comparison of character lists, as Python's
string `<=` behaves. -/
def lexLE : List Char → List Char → Bool
  | [], _ => true
  | _ :: _, [] => false
  | a :: as, b :: bs =>
    if a.toNat < b.toNat then true
    else if b.toNat < a.toNat then false
    else lexLE as bs

def strLE (a b : String) : Bool := lexLE a.data b.data

/-- Insertion of a string into an already sorted list. -/
def insSorted (x : String) : List String → List String
  | [] => [x]
  | y :: ys => if strLE x y then x :: y :: ys else y :: insSorted x ys

/-- Ascending sort of strings, as `groupby` orders its keys. -/
def sortStr : List String → List String :=
  List.foldr insSorted []

/-- The distinct `Diet_type` keys in the `groupby` output order. -/
def sortedDiets (t : Table) : List String :=
  sortStr (t.rows.map (·.dietType)).dedup

/-- The rows of one `Diet_type` group, in original order. -/
def groupRows (t : Table) (d : String) : List Row :=
  t.rows.filter (fun r => r.dietType == d)

/-! ### `calculate_average_macros` -/

/-- One row of the averaged table (index `Diet_type`, one mean per
macronutrient; a group with no values in a column averages to `NaN`). -/
structure AvgRow where
  dietType : String
  protein : Option ℚ
  carbs : Option ℚ
  fat : Option ℚ
deriving DecidableEq

/-- The output frame of `calculate_average_macros`. -/
structure AvgTable where
  cols : List Col
  rows : List AvgRow
deriving DecidableEq

/-- The group mean of macronutrient `c` over diet group `d`. -/
def groupMean (t : Table) (d : String) (c : MCol) : Option ℚ :=
  meanQ ((groupRows t d).filterMap c.get)

/-- `calculate_average_macros(df)`: it logs a warning about missing
macronutrient columns, but then evaluates
`df.groupby('Diet_type')[required_cols].mean()` anyway, which raises a
`KeyError` when `Diet_type` or any of the three macronutrient columns is
absent.  Group keys come out sorted ascending. -/
def calculate_average_macros (t : Table) : Except String AvgTable :=
  if Col.dietType ∉ t.cols then .error "KeyError: Diet_type"
  else if Col.protein ∈ t.cols ∧ Col.carbs ∈ t.cols ∧ Col.fat ∈ t.cols then
    .ok ⟨[Col.protein, Col.carbs, Col.fat],
      (sortedDiets t).map (fun d =>
        ⟨d, groupMean t d .protein, groupMean t d .carbs, groupMean t d .fat⟩)⟩
  else .error "KeyError: missing macronutrient columns"

/-- A table whose `Carbs(g)` column is absent. -/
def tMissingCarbs : Table :=
  ⟨[Col.dietType, Col.protein, Col.fat], [rowPCF "vegan" (some 1) none (some 1)]⟩

/-- C3: the claimed missing-column policy is the documented intent (the
source even logs `Warning: Missing columns for averaging` before
proceeding), but on a non-empty table with `Carbs(g)` absent both
`add_nutrient_ratios` (no presence check at all before `row['Carbs(g)']`)
and `calculate_average_macros` (warning, then
`df.groupby('Diet_type')[required_cols]`) raise a `KeyError` instead of
returning the documented fallback. -/
theorem c3_missing_column_raises :
    add_nutrient_ratios tMissingCarbs =
      .error "KeyError: Protein(g) or Carbs(g)" ∧
    calculate_average_macros tMissingCarbs =
      .error "KeyError: missing macronutrient columns" := by
  exact ⟨rfl, rfl⟩

/-! ### `filter_by_diet` -/

/-- `filter_by_diet(df, diet_type)`: the literal `"all"` (any casing) skips
filtering entirely (even when `Diet_type` is absent); otherwise a missing
`Diet_type` column yields an empty frame plus a warning, and otherwise the
rows whose `Diet_type` matches case-insensitively are kept. -/
def filter_by_diet (t : Table) (s : String) : Table :=
  if pyLower s = "all" then t
  else if Col.dietType ∈ t.cols then
    ⟨t.cols, t.rows.filter (fun r => pyLower r.dietType == pyLower s)⟩
  else ⟨[], []⟩

/-- C6: `filter_by_diet` returns the input unchanged for `"all"` in any
casing; for any other diet string it keeps exactly the rows whose
`Diet_type` matches case-insensitively (schema unchanged); and with the
`Diet_type` column missing it returns an empty frame instead of raising. -/
theorem c6_filter_by_diet_spec (t : Table) (s : String) :
    (pyLower s = "all" → filter_by_diet t s = t) ∧
    (pyLower s ≠ "all" → Col.dietType ∈ t.cols →
      (filter_by_diet t s).cols = t.cols ∧
      (filter_by_diet t s).rows =
        t.rows.filter (fun r => pyLower r.dietType == pyLower s)) ∧
    (pyLower s ≠ "all" → Col.dietType ∉ t.cols →
      filter_by_diet t s = ⟨[], []⟩) := by
  refine ⟨?_, ?_, ?_⟩
  · intro h
    unfold filter_by_diet
    rw [if_pos h]
  · intro h hd
    unfold filter_by_diet
    rw [if_neg h, if_pos hd]
    exact ⟨rfl, rfl⟩
  · intro h hd
    unfold filter_by_diet
    rw [if_neg h, if_neg hd]

/-- A two-diet table used to instantiate the filter claims. -/
def tTwoDiets : Table :=
  ⟨[Col.dietType, Col.protein],
    [rowPCF "Vegan" (some 1) none none, rowPCF "keto" (some 2) none none]⟩

/-- C6 witness: concrete instantiations of all three branches. -/
theorem c6_witness :
    filter_by_diet tTwoDiets "ALL" = tTwoDiets ∧
    (filter_by_diet tTwoDiets "VEGAN").rows =
      [rowPCF "Vegan" (some 1) none none] ∧
    filter_by_diet (Table.mk [Col.protein] tTwoDiets.rows) "vegan" = ⟨[], []⟩ := by
  refine ⟨(c6_filter_by_diet_spec tTwoDiets "ALL").1 (by decide), ?_, ?_⟩
  · rw [((c6_filter_by_diet_spec tTwoDiets "VEGAN").2.1 (by decide) (by decide)).2]
    decide
  · exact (c6_filter_by_diet_spec (Table.mk [Col.protein] tTwoDiets.rows)
      "vegan").2.2 (by decide) (by decide)

/-! ### `get_highest_protein_diet` -/

/-- Maximum of a list of rationals (`none` on the empty list). -/
def listMax : List ℚ → Option ℚ
  | [] => none
  | x :: xs =>
    match listMax xs with
    | none => some x
    | some m => some (max x m)

/-- The index label (here: `Diet_type`) of the first row attaining the
maximum, which is how `Series.idxmax` breaks ties. -/
def idxmaxFrom (m : ℚ) : List AvgRow → Option String
  | [] => none
  | r :: rs => if r.protein = some m then some r.dietType else idxmaxFrom m rs

/-- `get_highest_protein_diet(avg_macros)`: `None` when the `Protein(g)`
column is absent, otherwise `avg_macros['Protein(g)'].idxmax()` (skipping
missing entries; `idxmax` on an empty or all-missing series raises a
`ValueError`). -/
def get_highest_protein_diet (a : AvgTable) : Except String (Option String) :=
  if Col.protein ∉ a.cols then .ok none
  else
    match listMax (a.rows.filterMap (·.protein)) with
    | none => .error "ValueError: idxmax on empty series"
    | some m => .ok (idxmaxFrom m a.rows)

theorem listMax_eq_none (l : List ℚ) : listMax l = none ↔ l = [] := by
  cases l with
  | nil => simp [listMax]
  | cons x xs =>
    unfold listMax
    cases listMax xs <;> simp

theorem listMax_mem (l : List ℚ) (m : ℚ) (h : listMax l = some m) : m ∈ l := by
  induction l with
  | nil => simp [listMax] at h
  | cons x xs ih =>
    unfold listMax at h
    cases hx : listMax xs with
    | none =>
      rw [hx] at h
      simp at h
      simp [h]
    | some m' =>
      rw [hx] at h
      simp at h
      rcases max_choice x m' with hc | hc <;> rw [hc] at h
      · simp [h]
      · simp [ih (h ▸ hx)]

theorem listMax_ge (l : List ℚ) (m : ℚ) (h : listMax l = some m) :
    ∀ x ∈ l, x ≤ m := by
  induction l generalizing m with
  | nil => simp
  | cons x xs ih =>
    unfold listMax at h
    cases hx : listMax xs with
    | none =>
      rw [hx] at h
      simp at h
      rw [(listMax_eq_none xs).mp hx]
      simp [h]
    | some m' =>
      rw [hx] at h
      simp at h
      intro y hy
      rcases List.mem_cons.mp hy with rfl | hy'
      · rw [← h]
        exact le_max_left _ _
      · calc y ≤ m' := ih m' hx y hy'
          _ ≤ m := h ▸ le_max_right _ _

theorem idxmaxFrom_spec (rows : List AvgRow) (m : ℚ)
    (hex : ∃ r ∈ rows, r.protein = some m) :
    ∃ d, idxmaxFrom m rows = some d ∧
      ∃ i : ℕ, ∃ r ∈ rows[i]?, r.dietType = d ∧ r.protein = some m ∧
        ∀ j : ℕ, j < i → ∀ q ∈ rows[j]?, q.protein ≠ some m := by
  induction rows with
  | nil => simp at hex
  | cons r rs ih =>
    by_cases h : r.protein = some m
    · refine ⟨r.dietType, by simp [idxmaxFrom, h], 0, r, by simp, rfl, h, ?_⟩
      intro j hj
      omega
    · have hex' : ∃ q ∈ rs, q.protein = some m := by
        rcases hex with ⟨q, hq, hqp⟩
        rcases List.mem_cons.mp hq with rfl | hq'
        · exact (h hqp).elim
        · exact ⟨q, hq', hqp⟩
      rcases ih hex' with ⟨d, hfind, i, q, hq, hdt, hqp, hfirst⟩
      refine ⟨d, by simp [idxmaxFrom, h, hfind], i + 1, q, by simpa using hq,
        hdt, hqp, ?_⟩
      intro j hj p hp
      cases j with
      | zero =>
        simp only [List.getElem?_cons_zero, Option.mem_def, Option.some.injEq] at hp
        subst hp
        exact h
      | succ j' =>
        simp only [List.getElem?_cons_succ] at hp
        exact hfirst j' (by omega) p hp

theorem meanQ_single (a : ℚ) : meanQ [a] = some a := by
  unfold meanQ
  norm_num

theorem meanQ_pair (a b : ℚ) : meanQ [a, b] = some ((a + b) / 2) := by
  unfold meanQ
  rw [if_neg (by simp)]
  norm_num

/-- The worked example from the claim: rows (vegan,10,20,5), (keto,30,5,40),
(vegan,20,10,8). -/
def tC7 : Table :=
  ⟨[Col.dietType, Col.protein, Col.carbs, Col.fat],
    [rowPCF "vegan" (some 10) (some 20) (some 5),
     rowPCF "keto" (some 30) (some 5) (some 40),
     rowPCF "vegan" (some 20) (some 10) (some 8)]⟩

/-- The frame `calculate_average_macros` produces on `tC7`. -/
def avgC7 : AvgTable :=
  ⟨[Col.protein, Col.carbs, Col.fat],
    [⟨"keto", some 30, some 5, some 40⟩,
     ⟨"vegan", some 15, some 15, some (13 / 2)⟩]⟩

/-- C7: on an averaged table that has the `Protein(g)` column and at least
one non-missing average, `get_highest_protein_diet` returns the `Diet_type`
of the first row attaining the maximal average protein (ties resolved by
first occurrence in the averaged table's row order); with `Protein(g)`
absent it returns null; and the composition with `calculate_average_macros`
on the worked example (vegan avg 15, keto avg 30) returns "keto". -/
theorem c7_highest_protein_first_max (a : AvgTable)
    (hp : Col.protein ∈ a.cols)
    (hex : ∃ r ∈ a.rows, r.protein.isSome) :
    (∃ d : String, get_highest_protein_diet a = .ok (some d) ∧
      ∃ m : ℚ, ∃ i : ℕ, ∃ r ∈ a.rows[i]?, r.dietType = d ∧ r.protein = some m ∧
        (∀ q ∈ a.rows, ∀ v : ℚ, q.protein = some v → v ≤ m) ∧
        (∀ j : ℕ, j < i → ∀ q ∈ a.rows[j]?, q.protein ≠ some m)) ∧
    (calculate_average_macros tC7).bind get_highest_protein_diet =
      .ok (some "keto") ∧
    (∀ b : AvgTable, Col.protein ∉ b.cols →
      get_highest_protein_diet b = .ok none) := by
  refine ⟨?_, ?_, ?_⟩
  · rcases hex with ⟨r0, hr0, hr0s⟩
    obtain ⟨v0, hv0⟩ := Option.isSome_iff_exists.mp hr0s
    have hvmem : v0 ∈ a.rows.filterMap (·.protein) :=
      List.mem_filterMap.mpr ⟨r0, hr0, hv0⟩
    obtain ⟨m, hm⟩ : ∃ m, listMax (a.rows.filterMap (·.protein)) = some m := by
      cases hmx : listMax (a.rows.filterMap (·.protein)) with
      | none =>
        rw [(listMax_eq_none _).mp hmx] at hvmem
        simp at hvmem
      | some m => exact ⟨m, rfl⟩
    have hmmem := listMax_mem _ m hm
    obtain ⟨rm, hrm, hrmp⟩ := List.mem_filterMap.mp hmmem
    rcases idxmaxFrom_spec a.rows m ⟨rm, hrm, hrmp⟩ with
      ⟨d, hfind, i, r, hr, hdt, hrp, hfirst⟩
    refine ⟨d, ?_, m, i, r, hr, hdt, hrp, ?_, hfirst⟩
    · unfold get_highest_protein_diet
      rw [if_neg (not_not_intro hp), hm]
      show Except.ok (idxmaxFrom m a.rows) = Except.ok (some d)
      rw [hfind]
    · intro q hq v hqv
      exact listMax_ge _ m hm v (List.mem_filterMap.mpr ⟨q, hq, hqv⟩)
  · have h1 : calculate_average_macros tC7 = .ok avgC7 := by
      unfold calculate_average_macros
      rw [if_neg (by decide), if_pos (by decide)]
      have hd : sortedDiets tC7 = ["keto", "vegan"] := by decide
      have hkp : groupMean tC7 "keto" .protein = some 30 := by
        unfold groupMean
        rw [show (groupRows tC7 "keto").filterMap MCol.protein.get = [30] by decide,
          meanQ_single]
      have hkc : groupMean tC7 "keto" .carbs = some 5 := by
        unfold groupMean
        rw [show (groupRows tC7 "keto").filterMap MCol.carbs.get = [5] by decide,
          meanQ_single]
      have hkf : groupMean tC7 "keto" .fat = some 40 := by
        unfold groupMean
        rw [show (groupRows tC7 "keto").filterMap MCol.fat.get = [40] by decide,
          meanQ_single]
      have hvp : groupMean tC7 "vegan" .protein = some 15 := by
        unfold groupMean
        rw [show (groupRows tC7 "vegan").filterMap MCol.protein.get = [10, 20] by decide,
          meanQ_pair]
        norm_num
      have hvc : groupMean tC7 "vegan" .carbs = some 15 := by
        unfold groupMean
        rw [show (groupRows tC7 "vegan").filterMap MCol.carbs.get = [20, 10] by decide,
          meanQ_pair]
        norm_num
      have hvf : groupMean tC7 "vegan" .fat = some (13 / 2) := by
        unfold groupMean
        rw [show (groupRows tC7 "vegan").filterMap MCol.fat.get = [5, 8] by decide,
          meanQ_pair]
        norm_num
      rw [hd]
      simp only [List.map_cons, List.map_nil, hkp, hkc, hkf, hvp, hvc, hvf]
      rfl
    rw [h1]
    show get_highest_protein_diet avgC7 = .ok (some "keto")
    unfold get_highest_protein_diet
    rw [if_neg (by decide)]
    have hmx : listMax (avgC7.rows.filterMap (·.protein)) = some 30 := by
      show listMax [30, 15] = some 30
      simp [listMax]
      norm_num
    rw [hmx]
    simp [idxmaxFrom, avgC7]
  · intro b hb
    unfold get_highest_protein_diet
    rw [if_pos hb]

/-- C7 witness: instantiating the claim on the averaged frame `avgC7`. -/
theorem c7_witness :
    (∃ d : String, get_highest_protein_diet avgC7 = .ok (some d) ∧
      ∃ m : ℚ, ∃ i : ℕ, ∃ r ∈ avgC7.rows[i]?, r.dietType = d ∧ r.protein = some m ∧
        (∀ q ∈ avgC7.rows, ∀ v : ℚ, q.protein = some v → v ≤ m) ∧
        (∀ j : ℕ, j < i → ∀ q ∈ avgC7.rows[j]?, q.protein ≠ some m)) ∧
    (calculate_average_macros tC7).bind get_highest_protein_diet =
      .ok (some "keto") ∧
    (∀ b : AvgTable, Col.protein ∉ b.cols →
      get_highest_protein_diet b = .ok none) :=
  c7_highest_protein_first_max avgC7 (by decide) (by decide)

/-! ### `get_common_cuisines` and `Series.mode` -/

theorem lexLE_refl (l : List Char) : lexLE l l = true := by
  induction l with
  | nil => rfl
  | cons a as ih =>
    unfold lexLE
    rw [if_neg (lt_irrefl _), if_neg (lt_irrefl _)]
    exact ih

theorem lexLE_total (a b : List Char) : lexLE a b = true ∨ lexLE b a = true := by
  induction a generalizing b with
  | nil => left; rfl
  | cons x xs ih =>
    cases b with
    | nil => right; rfl
    | cons y ys =>
      unfold lexLE
      by_cases h1 : x.toNat < y.toNat
      · left
        rw [if_pos h1]
      · by_cases h2 : y.toNat < x.toNat
        · right
          rw [if_pos h2]
        · rw [if_neg h1, if_neg h2, if_neg h2, if_neg h1]
          exact ih ys

theorem lexLE_trans (a b c : List Char) (hab : lexLE a b = true)
    (hbc : lexLE b c = true) : lexLE a c = true := by
  induction a generalizing b c with
  | nil => rfl
  | cons x xs ih =>
    cases b with
    | nil => simp [lexLE] at hab
    | cons y ys =>
      cases c with
      | nil => simp [lexLE] at hbc
      | cons z zs =>
        unfold lexLE at hab hbc ⊢
        by_cases hxy : x.toNat < y.toNat
        · by_cases hyz : y.toNat < z.toNat
          · rw [if_pos (by omega)]
          · by_cases hzy : z.toNat < y.toNat
            · rw [if_neg hyz, if_pos hzy] at hbc
              exact absurd hbc (by simp)
            · rw [if_pos (by omega)]
        · by_cases hyx : y.toNat < x.toNat
          · rw [if_neg hxy, if_pos hyx] at hab
            exact absurd hab (by simp)
          · rw [if_neg hxy, if_neg hyx] at hab
            by_cases hyz : y.toNat < z.toNat
            · rw [if_pos (by omega)]
            · by_cases hzy : z.toNat < y.toNat
              · rw [if_neg hyz, if_pos hzy] at hbc
                exact absurd hbc (by simp)
              · rw [if_neg hyz, if_neg hzy] at hbc
                rw [if_neg (by omega), if_neg (by omega)]
                exact ih ys zs hab hbc

theorem strLE_refl (a : String) : strLE a a = true := lexLE_refl a.data

theorem strLE_total (a b : String) : strLE a b = true ∨ strLE b a = true :=
  lexLE_total a.data b.data

theorem strLE_trans (a b c : String) (hab : strLE a b = true)
    (hbc : strLE b c = true) : strLE a c = true :=
  lexLE_trans a.data b.data c.data hab hbc

/-- Least element of a list of strings under code-point order. -/
def strMinList : List String → Option String
  | [] => none
  | x :: xs =>
    match strMinList xs with
    | none => some x
    | some m => some (if strLE x m then x else m)

theorem strMinList_eq_none (l : List String) : strMinList l = none ↔ l = [] := by
  cases l with
  | nil => simp [strMinList]
  | cons x xs =>
    unfold strMinList
    cases strMinList xs <;> simp

theorem strMinList_mem (l : List String) (m : String)
    (h : strMinList l = some m) : m ∈ l := by
  induction l generalizing m with
  | nil => simp [strMinList] at h
  | cons x xs ih =>
    unfold strMinList at h
    cases hx : strMinList xs with
    | none =>
      rw [hx] at h
      simp at h
      simp [h]
    | some m' =>
      rw [hx] at h
      simp only [Option.some.injEq] at h
      split at h
      · simp [← h]
      · exact List.mem_cons_of_mem x (h ▸ ih m' hx)

theorem strMinList_le (l : List String) (m : String)
    (h : strMinList l = some m) : ∀ x ∈ l, strLE m x = true := by
  induction l generalizing m with
  | nil => simp
  | cons x xs ih =>
    unfold strMinList at h
    cases hx : strMinList xs with
    | none =>
      rw [hx] at h
      simp only [Option.some.injEq] at h
      rw [(strMinList_eq_none xs).mp hx]
      intro y hy
      simp only [List.mem_singleton] at hy
      rw [hy, ← h]
      exact strLE_refl x
    | some m' =>
      rw [hx] at h
      simp only [Option.some.injEq] at h
      intro y hy
      rcases List.mem_cons.mp hy with rfl | hy'
      · by_cases hle : strLE y m' = true
        · rw [if_pos hle] at h
          rw [← h]
          exact strLE_refl y
        · rw [if_neg hle] at h
          rw [← h]
          rcases strLE_total y m' with h2 | h2
          · exact absurd h2 hle
          · exact h2
      · by_cases hle : strLE x m' = true
        · rw [if_pos hle] at h
          rw [← h]
          exact strLE_trans x m' y hle (ih m' hx y hy')
        · rw [if_neg hle] at h
          rw [← h]
          exact ih m' hx y hy'

/-- Maximum of a list of naturals (`0` on the empty list). -/
def natMax : List ℕ → ℕ
  | [] => 0
  | x :: xs => max x (natMax xs)

theorem natMax_ge (l : List ℕ) : ∀ x ∈ l, x ≤ natMax l := by
  induction l with
  | nil => simp
  | cons x xs ih =>
    intro y hy
    rcases List.mem_cons.mp hy with rfl | hy'
    · exact le_max_left _ _
    · exact le_trans (ih y hy') (le_max_right _ _)

theorem natMax_mem (l : List ℕ) (h : l ≠ []) : natMax l ∈ l := by
  induction l with
  | nil => exact (h rfl).elim
  | cons x xs ih =>
    by_cases hxs : xs = []
    · subst hxs
      simp [natMax]
    · unfold natMax
      rcases max_choice x (natMax xs) with hc | hc <;> rw [hc]
      · exact List.mem_cons_self _ _
      · exact List.mem_cons_of_mem x (ih hxs)

/-- The largest multiplicity occurring in the list. -/
def maxCount (xs : List String) : ℕ :=
  natMax (xs.map (fun v => xs.count v))

/-- The values of maximal multiplicity (`Series.mode()` as a set; pandas
returns them sorted ascending). -/
def modeCandidates (xs : List String) : List String :=
  xs.dedup.filter (fun v => xs.count v == maxCount xs)

/-- `Series.mode().iloc[0]`: pandas sorts the tied modes ascending, so the
first one is the least tied mode in code-point order. -/
def pandasModeHead (xs : List String) : Option String :=
  strMinList (modeCandidates xs)

theorem count_le_maxCount (xs : List String) (v : String) (hv : v ∈ xs) :
    xs.count v ≤ maxCount xs :=
  natMax_ge _ _ (List.mem_map_of_mem _ hv)

theorem exists_count_eq_maxCount (xs : List String) (h : xs ≠ []) :
    ∃ v ∈ xs, xs.count v = maxCount xs := by
  have hmem : maxCount xs ∈ xs.map (fun v => xs.count v) :=
    natMax_mem _ (by simpa using h)
  rcases List.mem_map.mp hmem with ⟨v, hv, hcount⟩
  exact ⟨v, hv, hcount⟩

theorem pandasModeHead_eq_none (xs : List String)
    (h : pandasModeHead xs = none) : xs = [] := by
  by_contra hne
  rcases exists_count_eq_maxCount xs hne with ⟨v, hv, hcount⟩
  have hcand : v ∈ modeCandidates xs :=
    List.mem_filter.mpr ⟨List.mem_dedup.mpr hv, by simpa using hcount⟩
  unfold pandasModeHead at h
  rw [(strMinList_eq_none _).mp h] at hcand
  simp at hcand

theorem pandasModeHead_spec (xs : List String) (c : String)
    (h : pandasModeHead xs = some c) :
    c ∈ xs ∧ (∀ v ∈ xs, xs.count v ≤ xs.count c) ∧
      (∀ v ∈ xs, xs.count v = xs.count c → strLE c v = true) := by
  unfold pandasModeHead at h
  have hmem := strMinList_mem _ _ h
  rcases List.mem_filter.mp hmem with ⟨hdedup, hcount⟩
  have hcmax : xs.count c = maxCount xs := by simpa using hcount
  have hcx : c ∈ xs := List.mem_dedup.mp hdedup
  refine ⟨hcx, ?_, ?_⟩
  · intro v hv
    rw [hcmax]
    exact count_le_maxCount xs v hv
  · intro v hv hvc
    have hvcand : v ∈ modeCandidates xs :=
      List.mem_filter.mpr ⟨List.mem_dedup.mpr hv, by simp [hvc, hcmax]⟩
    exact strMinList_le _ _ h v hvcand

/-- The cuisine cells of one diet group, in original order. -/
def groupCuisines (t : Table) (d : String) : List (Option String) :=
  (groupRows t d).map (·.cuisineType)

/-- `x.mode().iloc[0] if not x.mode().empty else 'Unknown'` on one group
(`mode()` drops missing cells, so it is empty exactly when the group has
no cuisine value). -/
def modeOrUnknown (cells : List (Option String)) : String :=
  match pandasModeHead (cells.filterMap id) with
  | none => "Unknown"
  | some v => v

/-- `get_common_cuisines(df)`: empty mapping when `Cuisine_type` is absent
(checked first); `KeyError` if `Diet_type` is absent; otherwise one row per
diet key (ascending) with the group's modal cuisine. -/
def get_common_cuisines (t : Table) : Except String (List (String × String)) :=
  if Col.cuisineType ∉ t.cols then .ok []
  else if Col.dietType ∉ t.cols then .error "KeyError: Diet_type"
  else .ok ((sortedDiets t).map (fun d => (d, modeOrUnknown (groupCuisines t d))))

/-- Modelled from the spec: the tie-breaking rule the claim asserts — among
the tied modes pick the FIRST-ENCOUNTERED value, i.e. the first element of
the group whose multiplicity is maximal. -/
def specModeFirstEncountered (xs : List String) : Option String :=
  xs.find? (fun v => xs.count v == maxCount xs)

/-- The tie table: one vegan group with cuisines Thai then Italian, each
occurring once. -/
def rowDC (d c : String) : Row :=
  ⟨d, "", some c, none, none, none, none, none⟩

def c8tie : Table :=
  ⟨[Col.dietType, Col.cuisineType], [rowDC "vegan" "Thai", rowDC "vegan" "Italian"]⟩

/-- C8 counterexample: with the vegan group's cuisines `[Thai, Italian]`
(both occurring once) the claimed first-encountered tie-break yields
`Thai`, but the code (`Series.mode()` returns the tied values sorted
ascending and `.iloc[0]` takes the first) yields `Italian`. -/
theorem c8_counterexample :
    get_common_cuisines c8tie = .ok [("vegan", "Italian")] ∧
    specModeFirstEncountered ((groupCuisines c8tie "vegan").filterMap id) =
      some "Thai" ∧
    ("Italian" : String) ≠ "Thai" := by
  refine ⟨rfl, rfl, by decide⟩

/-- The example table of the claim: three vegan rows with cuisines Italian,
Italian, Thai. -/
def c8ex : Table :=
  ⟨[Col.dietType, Col.cuisineType],
    [rowDC "vegan" "Italian", rowDC "vegan" "Italian", rowDC "vegan" "Thai"]⟩

/-- C8 (amended: ties among the tied modes go to the LEAST value in
code-point order, because `Series.mode()` returns the tied values sorted
ascending and `.iloc[0]` takes the first): with both columns present the
result maps each diet key to a modal cuisine of its group (`'Unknown'` for
a group with no cuisine values); with `Cuisine_type` absent the result is
the empty mapping, without raising; and the claim's example still yields
`vegan -> "Italian"` since there the mode is unique. -/
theorem c8_common_cuisines_lex_mode (t : Table)
    (hcui : Col.cuisineType ∈ t.cols) (hd : Col.dietType ∈ t.cols) :
    (∃ res : List (String × String), get_common_cuisines t = .ok res ∧
      res.map Prod.fst = sortedDiets t ∧
      ∀ d c, (d, c) ∈ res →
        (((groupCuisines t d).filterMap id = [] ∧ c = "Unknown") ∨
         (c ∈ (groupCuisines t d).filterMap id ∧
          (∀ v ∈ (groupCuisines t d).filterMap id,
            ((groupCuisines t d).filterMap id).count v ≤
              ((groupCuisines t d).filterMap id).count c) ∧
          (∀ v ∈ (groupCuisines t d).filterMap id,
            ((groupCuisines t d).filterMap id).count v =
              ((groupCuisines t d).filterMap id).count c → strLE c v = true)))) ∧
    (∀ u : Table, Col.cuisineType ∉ u.cols → get_common_cuisines u = .ok []) ∧
    get_common_cuisines c8ex = .ok [("vegan", "Italian")] := by
  refine ⟨⟨(sortedDiets t).map (fun d => (d, modeOrUnknown (groupCuisines t d))),
    ?_, ?_, ?_⟩, ?_, ?_⟩
  · unfold get_common_cuisines
    rw [if_neg (not_not_intro hcui), if_neg (not_not_intro hd)]
  · simp [Function.comp_def]
  · intro d c hmem
    rcases List.mem_map.mp hmem with ⟨d', hd', heq⟩
    simp only [Prod.mk.injEq] at heq
    obtain ⟨rfl, rfl⟩ := heq
    cases hmode : pandasModeHead ((groupCuisines t d').filterMap id) with
    | none =>
      left
      refine ⟨pandasModeHead_eq_none _ hmode, ?_⟩
      unfold modeOrUnknown
      rw [hmode]
    | some v =>
      right
      have hcv : modeOrUnknown (groupCuisines t d') = v := by
        unfold modeOrUnknown
        rw [hmode]
      rw [hcv]
      exact pandasModeHead_spec _ v hmode
  · intro u hu
    unfold get_common_cuisines
    rw [if_pos hu]
  · rfl

/-- C8 witness: the amended claim instantiated on the example table. -/
theorem c8_witness :
    (∃ res : List (String × String), get_common_cuisines c8ex = .ok res ∧
      res.map Prod.fst = sortedDiets c8ex ∧
      ∀ d c, (d, c) ∈ res →
        (((groupCuisines c8ex d).filterMap id = [] ∧ c = "Unknown") ∨
         (c ∈ (groupCuisines c8ex d).filterMap id ∧
          (∀ v ∈ (groupCuisines c8ex d).filterMap id,
            ((groupCuisines c8ex d).filterMap id).count v ≤
              ((groupCuisines c8ex d).filterMap id).count c) ∧
          (∀ v ∈ (groupCuisines c8ex d).filterMap id,
            ((groupCuisines c8ex d).filterMap id).count v =
              ((groupCuisines c8ex d).filterMap id).count c → strLE c v = true)))) ∧
    (∀ u : Table, Col.cuisineType ∉ u.cols → get_common_cuisines u = .ok []) ∧
    get_common_cuisines c8ex = .ok [("vegan", "Italian")] :=
  c8_common_cuisines_lex_mode c8ex (by decide) (by decide)

/-! ### `get_top_protein_recipes` -/

/-- Strict comparison of protein sort keys, with a missing key below every
present one (so that descending order puts `NaN` last, as
`sort_values(..., ascending=False)` does). -/
def keyLT : Option ℚ → Option ℚ → Bool
  | none, none => false
  | none, some _ => true
  | some _, none => false
  | some a, some b => decide (a < b)

/-- Sort relation for `df.sort_values('Protein(g)', ascending=False)` over
index-tagged rows: protein descending with missing keys last.  Equal keys
are ordered by positional index — one admissible outcome of the unstable
default quicksort, chosen only to make the model a function; claim theorems
use only consequences that hold for every admissible tie order. -/
def rowLE (a b : ℕ × Row) : Bool :=
  if a.2.protein = b.2.protein then decide (a.1 ≤ b.1)
  else keyLT b.2.protein a.2.protein

theorem keyLT_irrefl (x : Option ℚ) : keyLT x x = false := by
  cases x <;> simp [keyLT]

theorem keyLT_asymm (x y : Option ℚ) (h : keyLT x y = true) :
    keyLT y x = false := by
  cases x <;> cases y <;> simp_all [keyLT]
  exact le_of_lt h

theorem keyLT_trans (x y z : Option ℚ) (hxy : keyLT x y = true)
    (hyz : keyLT y z = true) : keyLT x z = true := by
  cases x <;> cases y <;> cases z <;> simp_all [keyLT]
  exact hxy.trans hyz

theorem keyLT_total_ne (x y : Option ℚ) (h : x ≠ y) :
    keyLT x y = true ∨ keyLT y x = true := by
  cases x <;> cases y <;> simp_all [keyLT]

theorem rowLE_total (a b : ℕ × Row) : (rowLE a b || rowLE b a) = true := by
  unfold rowLE
  by_cases h : a.2.protein = b.2.protein
  · rw [if_pos h, if_pos h.symm]
    simp only [Bool.or_eq_true, decide_eq_true_eq]
    omega
  · rw [if_neg h, if_neg (fun hh => h hh.symm)]
    rcases keyLT_total_ne _ _ h with hk | hk <;> simp [hk]

theorem rowLE_trans (a b c : ℕ × Row) (hab : rowLE a b = true)
    (hbc : rowLE b c = true) : rowLE a c = true := by
  unfold rowLE at hab hbc ⊢
  by_cases h1 : a.2.protein = b.2.protein <;>
    by_cases h2 : b.2.protein = c.2.protein
  · rw [if_pos h1] at hab
    rw [if_pos h2] at hbc
    rw [if_pos (h1.trans h2)]
    simp only [decide_eq_true_eq] at hab hbc ⊢
    omega
  · rw [if_pos h1] at hab
    rw [if_neg h2] at hbc
    rw [if_neg (by rw [h1]; exact h2), h1]
    exact hbc
  · rw [if_neg h1] at hab
    rw [if_pos h2] at hbc
    rw [if_neg (fun hh => h1 (hh.trans h2.symm)), ← h2]
    exact hab
  · rw [if_neg h1] at hab
    rw [if_neg h2] at hbc
    have hca := keyLT_trans _ _ _ hbc hab
    by_cases h3 : a.2.protein = c.2.protein
    · rw [h3, keyLT_irrefl] at hca
      exact absurd hca (by simp)
    · rw [if_neg h3]
      exact hca

/-- The sorted, index-tagged frame: one admissible result of the unstable
`sort_values` — a permutation of `rows.enum` that is non-increasing in the
protein key.  The program guarantees exactly those two facts and no
particular tie order. -/
def sortByProteinDesc (rows : List Row) : List (ℕ × Row) :=
  rows.enum.mergeSort rowLE

/-- `groupby('Diet_type').head(n)` over the sorted frame: keep a row iff
fewer than `n` rows of its diet group came before it; the frame order is
untouched (groups are NOT brought together). -/
def takePerGroupAux (n : ℕ) (seen : List String) : List (ℕ × Row) → List (ℕ × Row)
  | [] => []
  | r :: rs =>
    if seen.count r.2.dietType < n then
      r :: takePerGroupAux n (r.2.dietType :: seen) rs
    else
      takePerGroupAux n (r.2.dietType :: seen) rs

/-- `get_top_protein_recipes(df, top_n)`: empty frame when `Protein(g)` is
absent; `KeyError` when `Diet_type` is absent (from `groupby`); otherwise
sorts by protein descending and takes the first `top_n` rows per group,
keeping the sorted frame's row order. -/
def get_top_protein_recipes (t : Table) (n : ℕ) : Except String Table :=
  if Col.protein ∉ t.cols then .ok ⟨[], []⟩
  else if Col.dietType ∉ t.cols then .error "KeyError: Diet_type"
  else .ok ⟨t.cols, (takePerGroupAux n [] (sortByProteinDesc t.rows)).map Prod.snd⟩

theorem sorted_sortByProteinDesc (rows : List Row) :
    (sortByProteinDesc rows).Pairwise (fun a b => rowLE a b = true) :=
  List.sorted_mergeSort rowLE_trans rowLE_total rows.enum

theorem nodupFst_sortByProteinDesc (rows : List Row) :
    ((sortByProteinDesc rows).map Prod.fst).Nodup := by
  have hperm : List.Perm (sortByProteinDesc rows) rows.enum := List.mergeSort_perm _ _
  exact ((hperm.map Prod.fst).nodup_iff).mpr (List.nodup_enum_map_fst rows)

/-- The model's sorted frame is strictly ordered by (protein descending,
position ascending).  This describes the model's chosen tie order; claim
theorems only use its tie-order-independent consequences (non-increasing
keys, distinct positions). -/
theorem strict_sortByProteinDesc (rows : List Row) :
    (sortByProteinDesc rows).Pairwise (fun a b =>
      keyLT b.2.protein a.2.protein = true ∨
      (a.2.protein = b.2.protein ∧ a.1 < b.1)) := by
  have h2 : (sortByProteinDesc rows).Pairwise (fun a b => a.1 ≠ b.1) :=
    (List.pairwise_map).mp (nodupFst_sortByProteinDesc rows)
  refine ((sorted_sortByProteinDesc rows).and h2).imp ?_
  intro a b hab
  obtain ⟨hle, hne⟩ := hab
  unfold rowLE at hle
  by_cases h : a.2.protein = b.2.protein
  · rw [if_pos h] at hle
    right
    refine ⟨h, ?_⟩
    simp only [decide_eq_true_eq] at hle
    omega
  · rw [if_neg h] at hle
    left
    exact hle

theorem takePerGroupAux_sublist (n : ℕ) (seen : List String)
    (l : List (ℕ × Row)) : (takePerGroupAux n seen l).Sublist l := by
  induction l generalizing seen with
  | nil => simp [takePerGroupAux]
  | cons r rs ih =>
    unfold takePerGroupAux
    split
    · exact (ih _).cons₂ r
    · exact (ih _).cons r

theorem takePerGroupAux_count (n : ℕ) (d : String) :
    ∀ (l : List (ℕ × Row)) (seen : List String),
      ((takePerGroupAux n seen l).filter (fun p => p.2.dietType == d)).length ≤
        n - seen.count d := by
  intro l
  induction l with
  | nil =>
    intro seen
    simp [takePerGroupAux]
  | cons r rs ih =>
    intro seen
    unfold takePerGroupAux
    by_cases hd : r.2.dietType = d
    · have hcount : (r.2.dietType :: seen).count d = seen.count d + 1 := by
        simp [List.count_cons, hd]
      split
      next hlt =>
        rw [List.filter_cons, if_pos (by simp [hd])]
        simp only [List.length_cons]
        have hrec := ih (r.2.dietType :: seen)
        rw [hcount] at hrec
        rw [hd] at hlt
        omega
      next hge =>
        have hrec := ih (r.2.dietType :: seen)
        rw [hcount] at hrec
        rw [hd] at hge
        omega
    · have hcount : (r.2.dietType :: seen).count d = seen.count d := by
        simp [List.count_cons, hd]
      split
      next hlt =>
        rw [List.filter_cons, if_neg (by simp [hd])]
        have hrec := ih (r.2.dietType :: seen)
        rw [hcount] at hrec
        exact hrec
      next hge =>
        have hrec := ih (r.2.dietType :: seen)
        rw [hcount] at hrec
        exact hrec

theorem takePerGroupAux_mem (n : ℕ) (seen : List String) (rows : List Row)
    (s : List (ℕ × Row)) (hs : List.Perm s rows.enum)
    (p : ℕ × Row) (hp : p ∈ takePerGroupAux n seen s) :
    rows[p.1]? = some p.2 := by
  have h1 : p ∈ s := (takePerGroupAux_sublist n seen s).subset hp
  exact List.mem_enum_iff_getElem?.mp (hs.subset h1)

/-- C4: with `Protein(g)` (and the grouping column) present, the result has
at most `top_n` rows of each diet type, and within each diet type the rows
appear in non-increasing protein order (missing keys at the bottom). -/
theorem c4_top_protein_bounded_and_sorted (t : Table) (n : ℕ)
    (hp : Col.protein ∈ t.cols) (hd : Col.dietType ∈ t.cols) :
    ∃ u : Table, get_top_protein_recipes t n = .ok u ∧
      ∀ d : String,
        (u.rows.filter (fun r => r.dietType == d)).length ≤ n ∧
        (u.rows.filter (fun r => r.dietType == d)).Pairwise
          (fun a b => keyLT a.protein b.protein = false) := by
  refine ⟨⟨t.cols, (takePerGroupAux n [] (sortByProteinDesc t.rows)).map Prod.snd⟩,
    ?_, ?_⟩
  · unfold get_top_protein_recipes
    rw [if_neg (not_not_intro hp), if_neg (not_not_intro hd)]
  · intro d
    constructor
    · rw [List.filter_map, List.length_map]
      have hcount := takePerGroupAux_count n d (sortByProteinDesc t.rows) []
      simp only [List.count_nil, Nat.sub_zero] at hcount
      exact hcount
    · rw [List.filter_map]
      have hstrict := List.Pairwise.sublist (takePerGroupAux_sublist n [] _)
        (strict_sortByProteinDesc t.rows)
      have hfilter := hstrict.filter ((fun r : Row => r.dietType == d) ∘ Prod.snd)
      refine hfilter.map Prod.snd ?_
      intro a b hab
      rcases hab with hlt | heq
      · exact keyLT_asymm _ _ hlt
      · rw [heq.1]
        exact keyLT_irrefl _

/-- A four-row table whose sorted order interleaves the two diet groups. -/
def c5tab : Table :=
  ⟨[Col.dietType, Col.protein],
    [rowPCF "a" (some 30) none none, rowPCF "b" (some 25) none none,
     rowPCF "a" (some 20) none none, rowPCF "b" (some 15) none none]⟩

/-- C4 witness: the claim instantiated on `c5tab` with `top_n = 1`. -/
theorem c4_witness :
    ∃ u : Table, get_top_protein_recipes c5tab 1 = .ok u ∧
      ∀ d : String,
        (u.rows.filter (fun r => r.dietType == d)).length ≤ 1 ∧
        (u.rows.filter (fun r => r.dietType == d)).Pairwise
          (fun a b => keyLT a.protein b.protein = false) :=
  c4_top_protein_bounded_and_sorted c5tab 1 (by decide) (by decide)

/-- Modelled from the claim's wording "the per-Diet_type groups concatenated
one group after another": a list of diet labels is a concatenation of groups
iff equal labels are contiguous — once the label changes, an earlier label
may not reappear. -/
def blocksFrom (prev : String) (seen : List String) : List String → Bool
  | [] => true
  | x :: xs =>
    if x = prev then blocksFrom prev seen xs
    else if x ∈ seen then false
    else blocksFrom x (prev :: seen) xs

def groupedBlocks : List String → Bool
  | [] => true
  | x :: xs => blocksFrom x [] xs

/-- C5 counterexample: `groupby('Diet_type').head(top_n)` keeps the rows in
the globally sorted frame order, so on `c5tab` the output diet sequence is
`a, b, a, b` — the groups are interleaved, not concatenated one after
another as the claim states. -/
theorem c5_counterexample :
    ∃ u : Table, get_top_protein_recipes c5tab 5 = .ok u ∧
      u.rows.map (·.dietType) = ["a", "b", "a", "b"] ∧
      groupedBlocks (u.rows.map (·.dietType)) = false := by
  have hs : sortByProteinDesc c5tab.rows = c5tab.rows.enum :=
    List.mergeSort_of_sorted (by decide)
  refine ⟨⟨c5tab.cols,
    (takePerGroupAux 5 [] (sortByProteinDesc c5tab.rows)).map Prod.snd⟩, ?_, ?_, ?_⟩
  · unfold get_top_protein_recipes
    rw [if_neg (by decide), if_neg (by decide)]
  · rw [hs]
    decide
  · rw [hs]
    decide

/-- C5 (amended: the concatenation clause is refuted by the counterexample
above, and the claim's "ties broken by original row order (stable sort)"
clause is dropped — the source sorts with pandas' default quicksort, which
is documented as not stable, so the program guarantees no particular tie
order): the selected rows are original rows at pairwise-distinct original
positions, appearing in one globally non-increasing Protein(g) order
(missing keys last) in which the diet groups may interleave.  The second
conjunct shows these properties are no artifact of the model's tie order:
they hold for EVERY non-increasing permutation of the index-tagged rows
that the unstable sort could produce. -/
theorem c5_top_protein_global_order (t : Table) (n : ℕ)
    (hp : Col.protein ∈ t.cols) (hd : Col.dietType ∈ t.cols) :
    (∃ u : Table, get_top_protein_recipes t n = .ok u ∧
      ∃ ir : List (ℕ × Row), u.rows = ir.map Prod.snd ∧
        (∀ p ∈ ir, t.rows[p.1]? = some p.2) ∧
        (ir.map Prod.fst).Nodup ∧
        ir.Pairwise (fun a b => keyLT a.2.protein b.2.protein = false)) ∧
    ∀ s : List (ℕ × Row), List.Perm s t.rows.enum →
      s.Pairwise (fun a b => keyLT a.2.protein b.2.protein = false) →
      (∀ p ∈ takePerGroupAux n [] s, t.rows[p.1]? = some p.2) ∧
      ((takePerGroupAux n [] s).map Prod.fst).Nodup ∧
      (takePerGroupAux n [] s).Pairwise
        (fun a b => keyLT a.2.protein b.2.protein = false) := by
  constructor
  · refine ⟨⟨t.cols, (takePerGroupAux n [] (sortByProteinDesc t.rows)).map Prod.snd⟩,
      ?_, takePerGroupAux n [] (sortByProteinDesc t.rows), rfl, ?_, ?_, ?_⟩
    · unfold get_top_protein_recipes
      rw [if_neg (not_not_intro hp), if_neg (not_not_intro hd)]
    · intro p hp2
      exact takePerGroupAux_mem n [] t.rows _ (List.mergeSort_perm _ _) p hp2
    · exact (nodupFst_sortByProteinDesc t.rows).sublist
        ((takePerGroupAux_sublist n [] _).map Prod.fst)
    · refine (List.Pairwise.sublist (takePerGroupAux_sublist n [] _)
        (strict_sortByProteinDesc t.rows)).imp ?_
      intro a b hab
      rcases hab with hlt | heq
      · exact keyLT_asymm _ _ hlt
      · rw [heq.1]
        exact keyLT_irrefl _
  · intro s hsp hsort
    refine ⟨?_, ?_, ?_⟩
    · intro p hp2
      exact takePerGroupAux_mem n [] t.rows s hsp p hp2
    · exact (((hsp.map Prod.fst).nodup_iff).mpr (List.nodup_enum_map_fst t.rows)).sublist
        ((takePerGroupAux_sublist n [] s).map Prod.fst)
    · exact List.Pairwise.sublist (takePerGroupAux_sublist n [] s) hsort

/-- C5 witness: the amended claim instantiated on `c5tab` with `top_n = 2`. -/
theorem c5_witness :
    (∃ u : Table, get_top_protein_recipes c5tab 2 = .ok u ∧
      ∃ ir : List (ℕ × Row), u.rows = ir.map Prod.snd ∧
        (∀ p ∈ ir, c5tab.rows[p.1]? = some p.2) ∧
        (ir.map Prod.fst).Nodup ∧
        ir.Pairwise (fun a b => keyLT a.2.protein b.2.protein = false)) ∧
    ∀ s : List (ℕ × Row), List.Perm s c5tab.rows.enum →
      s.Pairwise (fun a b => keyLT a.2.protein b.2.protein = false) →
      (∀ p ∈ takePerGroupAux 2 [] s, c5tab.rows[p.1]? = some p.2) ∧
      ((takePerGroupAux 2 [] s).map Prod.fst).Nodup ∧
      (takePerGroupAux 2 [] s).Pairwise
        (fun a b => keyLT a.2.protein b.2.protein = false) :=
  c5_top_protein_global_order c5tab 2 (by decide) (by decide)
